import Mathlib

/-!
Verification of the tenchmark load generator core (`main.go`) against its
specification.  The Go code is shallowly embedded: slices of Go `int`
become `List ℤ`, Go integer division on non-negative operands becomes
`Nat` division, a slice access `s[k]` whose index may be out of range is
modelled as an `Option` (Go panics there), and per-request protocol calls
are modelled as pure traces of protocol operations.
-/

namespace Tenchmark

/-! ### Workload dispatcher (main.go lines 246–254)

`quotient, remainder := *requests / *concurrency, *requests % *concurrency`;
worker `i` receives `quotient+1` requests when `i < remainder`, else
`quotient`. -/

/-- Number of requests the dispatcher assigns to worker `i`
(main.go 246–253). -/
def workerCount (R C i : ℕ) : ℕ :=
  if i < R % C then R / C + 1 else R / C

/-! ### Worker loop (main.go lines 115–123)

Each worker performs up to `count` calls; on the first failed call it
returns, otherwise it pushes the measured duration.  `f k` is the outcome
of the worker's `k`-th call: `some d` for success with duration `d`
microseconds, `none` for failure. -/

/-- Samples a worker pushes onto the channel, starting from iteration `i`
out of `count` (main.go 115–123). -/
def process (f : ℕ → Option ℤ) (i count : ℕ) : List ℤ :=
  if _h : count ≤ i then []
  else
    match f i with
    | none => []
    | some d => d :: process f (i + 1) count
termination_by count - i

/-! ### Percentile engine (main.go lines 159–168 and 184–192) -/

/-- Go slice read `xs[k]` for an index known to be in range on every
reachable state (Go panics out of range; `getD` gives a junk default
there, which the theorems' in-bounds hypotheses exclude). -/
def elt (xs : List ℤ) (k : ℤ) : ℤ := xs.getD k.toNat 0

/-- The `(percentile, denominator)` pairs `collect` passes to the lookup
`v` (main.go 184–191). -/
def percentileCalls : List (ℕ × ℤ) :=
  [(50, 2), (66, 3), (75, 4), (80, 5), (90, 10), (95, 20), (98, 50), (99, 100)]

/-- Index selected by the lookup `v` for sample count `L` and denominator
`d` (main.go 162–167): `L-1` for the non-positive sentinel, otherwise
`L*(d-1)/d - 1` with Go integer (truncating) division. -/
def cutIdx (L : ℕ) (d : ℤ) : ℤ :=
  if d ≤ 0 then (L : ℤ) - 1
  else ((L * (d.toNat - 1) / d.toNat : ℕ) : ℤ) - 1

/-- The percentile lookup closure `v` of `collect` (main.go 162–168),
reported in milliseconds.  `none` models the out-of-range slice access
(a Go runtime panic). -/
def v (s : List ℤ) (d : ℤ) : Option ℚ :=
  let idx := cutIdx s.length d
  if 0 ≤ idx ∧ idx < (s.length : ℤ) then
    some ((elt s idx : ℤ) / 1000 : ℚ)
  else none

/-- The millisecond value the lookup `v` yields when its index is in
range: the selected sample divided by 1000. -/
def vq (s : List ℤ) (d : ℤ) : ℚ := ((elt s (cutIdx s.length d) : ℤ) : ℚ) / 1000

/-- The nine percentile lookups the report performs, in order
(main.go 184–192): denominators 2,3,4,5,10,20,50,100 then the `-1`
sentinel for the 100th percentile. -/
def reportPercentileValues (s : List ℤ) : List (Option ℚ) :=
  percentileCalls.map (fun p => v s p.2) ++ [v s (-1)]

/-- The `Failed requests` figure of the report: `*requests - l`
(main.go 180). -/
def failedRequests (R : ℤ) (s : List ℤ) : ℤ := R - s.length

/-! ### In-place quicksort (main.go lines 126–145) -/

/-- The multiset of the slice entries at positions `l..r`, the value
`sort` permutes in place; used to state that a subrange's contents are
preserved. -/
def msetR (xs : List ℤ) (l r : ℤ) : Multiset ℤ :=
  if l > r then 0 else elt xs l ::ₘ msetR xs (l + 1) r
termination_by (r + 1 - l).toNat
decreasing_by omega

/-- Go parallel assignment `xs[a], xs[b] = xs[b], xs[a]`
(main.go 136). -/
def swapGo (xs : List ℤ) (a b : ℤ) : List ℤ :=
  (xs.set a.toNat (elt xs b)).set b.toNat (elt xs a)

/-- The partition loop of `sort` (main.go 132–139): scans `j` from its
start value up to `r`, swapping `values[i]` and `values[j]` and bumping
`i` whenever `pivot > values[j]`.  Returns the final slice and `i`. -/
def ploop (values : List ℤ) (pivot i j r : ℤ) : List ℤ × ℤ :=
  if j > r then (values, i)
  else if pivot > elt values j then
    ploop (swapGo values i j) pivot (i + 1) (j + 1) r
  else
    ploop values pivot i (j + 1) r
termination_by (r + 1 - j).toNat
decreasing_by all_goals omega

/-- The partition pointer `i` only grows, by at most one per remaining
iteration: `i ≤ i' ≤ i + (r + 1 - j)`.  This bound is what makes the
recursive calls of `sort` strictly smaller. -/
theorem ploop_snd_bounds (values : List ℤ) (pivot i j r : ℤ) (hij : i ≤ j)
    (hj : j ≤ r + 1) :
    i ≤ (ploop values pivot i j r).2 ∧
      (ploop values pivot i j r).2 ≤ i + (r + 1 - j) := by
  rw [ploop]
  by_cases hjr : j > r
  · simp only [if_pos hjr]
    omega
  · simp only [if_neg hjr]
    by_cases hp : pivot > elt values j
    · simp only [if_pos hp]
      have ih := ploop_snd_bounds (swapGo values i j) pivot (i + 1) (j + 1) r
        (by omega) (by omega)
      omega
    · simp only [if_neg hp]
      have ih := ploop_snd_bounds values pivot i (j + 1) r (by omega) (by omega)
      omega
termination_by (r + 1 - j).toNat
decreasing_by all_goals omega

/-- The recursive quicksort of main.go 126–145, with Go's first-element
pivot and the literal final assignment
`values[l], values[i-1] = values[i-1], pivot` (main.go 141). -/
def sort (values : List ℤ) (l r : ℤ) : List ℤ :=
  if l ≥ r then values
  else
    let pivot := elt values l
    let p := ploop values pivot (l + 1) (l + 1) r
    let w := (p.1.set l.toNat (elt p.1 (p.2 - 1))).set (p.2 - 1).toNat pivot
    sort (sort w l (p.2 - 2)) p.2 r
termination_by (r - l).toNat
decreasing_by
  · have h := ploop_snd_bounds values (elt values l) (l + 1) (l + 1) r le_rfl
      (by omega)
    omega
  · have h := ploop_snd_bounds values (elt values l) (l + 1) (l + 1) r le_rfl
      (by omega)
    omega

/-! ### Case executor (main.go lines 23–83)

The protocol handed to a case is modelled by the trace of operations
invoked on it; no operation fails in the model except the `default`
branch of `writeMessageBody`, which produces the `unsupport type` error
exactly as the Go code does. -/

/-- A Go `interface{}` argument as matched by the type switch of
`writeMessageBody` (main.go 30–45): the four supported kinds carry their
value, `other` stands for every unsupported dynamic type. -/
inductive ArgVal where
  | i16 : ℤ → ArgVal
  | i32 : ℤ → ArgVal
  | i64 : ℤ → ArgVal
  | str : String → ArgVal
  | other : ArgVal
deriving DecidableEq

/-- One protocol operation invoked by the case executor. -/
inductive ProtoOp where
  | msgBegin : String → ProtoOp
  | structBegin : ProtoOp
  | fieldBegin : String → ℤ → ProtoOp
  | writeI16 : ℤ → ProtoOp
  | writeI32 : ℤ → ProtoOp
  | writeI64 : ℤ → ProtoOp
  | writeString : String → ProtoOp
  | fieldStop : ProtoOp
  | structEnd : ProtoOp
  | msgEnd : ProtoOp
  | flush : ProtoOp
  | readMsgBegin : ProtoOp
  | skipStruct : ProtoOp
  | readMsgEnd : ProtoOp
deriving DecidableEq

/-- Whether an operation writes to the outbound protocol (everything
except the three read-side operations). -/
def ProtoOp.isWrite : ProtoOp → Bool
  | .readMsgBegin => false
  | .skipStruct => false
  | .readMsgEnd => false
  | _ => true

/-- Go `int16(n)` conversion (main.go 29): wrap into `[-2^15, 2^15)`. -/
def int16of (n : ℤ) : ℤ := (n + 2 ^ 15) % 2 ^ 16 - 2 ^ 15

/-- The argument loop of `writeMessageBody` (main.go 28–49): `i` is the
0-based position of the first remaining argument.  Returns the operations
invoked and the error, stopping at the first `default` branch. -/
def wmbLoop (args : List ArgVal) (i : ℕ) : List ProtoOp × Option String :=
  match args with
  | [] => ([], none)
  | a :: rest =>
    let idx := int16of ((i : ℤ) + 1)
    match a with
    | .i16 x =>
      let t := wmbLoop rest (i + 1)
      (ProtoOp.fieldBegin "i16" idx :: ProtoOp.writeI16 x :: t.1, t.2)
    | .i32 x =>
      let t := wmbLoop rest (i + 1)
      (ProtoOp.fieldBegin "i32" idx :: ProtoOp.writeI32 x :: t.1, t.2)
    | .i64 x =>
      let t := wmbLoop rest (i + 1)
      (ProtoOp.fieldBegin "i64" idx :: ProtoOp.writeI64 x :: t.1, t.2)
    | .str x =>
      let t := wmbLoop rest (i + 1)
      (ProtoOp.fieldBegin "string" idx :: ProtoOp.writeString x :: t.1, t.2)
    | .other => ([], some "unsupport type")

/-- `writeMessageBody` (main.go 24–63): struct begin, the argument loop,
then (on success only) field stop, struct end, message end and flush
(main.go 50–59). -/
def writeMessageBody (args : List ArgVal) : List ProtoOp × Option String :=
  let t := wmbLoop args 0
  match t.2 with
  | some e => (ProtoOp.structBegin :: t.1, some e)
  | none =>
    (ProtoOp.structBegin :: t.1 ++
      [ProtoOp.fieldStop, ProtoOp.structEnd, ProtoOp.msgEnd,
        ProtoOp.flush], none)

/-- The case returned by `call` (main.go 65–82): message begin, the body,
then (on success only) the read side of the round trip. -/
def call (name : String) (args : List ArgVal) : List ProtoOp × Option String :=
  let b := writeMessageBody args
  match b.2 with
  | some e => (ProtoOp.msgBegin name :: b.1, some e)
  | none =>
    (ProtoOp.msgBegin name :: b.1 ++
      [ProtoOp.readMsgBegin, ProtoOp.skipStruct, ProtoOp.readMsgEnd], none)

/-! ## Dispatcher partition: claim C1 -/

/-- Auxiliary: counting how many of `0..C-1` are below `m`. -/
theorem sum_ite_lt (m C : ℕ) :
    (∑ i ∈ Finset.range C, if i < m then 1 else 0) = min m C := by
  induction C with
  | zero => simp
  | succ n ih =>
    rw [Finset.sum_range_succ, ih]
    by_cases h : n < m
    · simp only [if_pos h]
      omega
    · simp only [if_neg h]
      omega

/-- C1: for every total request count `R > 0` and concurrency `C > 0`, the
dispatcher gives each of the first `R % C` workers `R / C + 1` requests and
each remaining worker `R / C` requests; the counts are non-negative, sum to
exactly `R`, and differ pairwise by at most 1. -/
theorem dispatcher_partition (R C : ℕ) (hR : 0 < R) (hC : 0 < C) :
    (∀ i, i < R % C → workerCount R C i = R / C + 1) ∧
    (∀ i, R % C ≤ i → i < C → workerCount R C i = R / C) ∧
    (∀ i, 0 ≤ workerCount R C i) ∧
    (∑ i ∈ Finset.range C, workerCount R C i = R) ∧
    (∀ i j, i < C → j < C → workerCount R C i ≤ workerCount R C j + 1) := by
  refine ⟨fun i hi => if_pos hi, fun i hi _ => if_neg (by omega),
    fun i => Nat.zero_le _, ?_, ?_⟩
  · have hsplit : ∀ i, workerCount R C i = R / C + (if i < R % C then 1 else 0) := by
      intro i
      unfold workerCount
      split <;> omega
    have hmod : R % C < C := Nat.mod_lt _ hC
    calc ∑ i ∈ Finset.range C, workerCount R C i
        = ∑ i ∈ Finset.range C, (R / C + if i < R % C then 1 else 0) := by
          exact Finset.sum_congr rfl fun i _ => hsplit i
      _ = C * (R / C) + ∑ i ∈ Finset.range C, (if i < R % C then 1 else 0) := by
          rw [Finset.sum_add_distrib, Finset.sum_const, Finset.card_range,
            smul_eq_mul]
      _ = C * (R / C) + R % C := by rw [sum_ite_lt]; omega
      _ = R := Nat.div_add_mod R C
  · intro i j _ _
    unfold workerCount
    split <;> split <;> omega

/-- Closed instance of `dispatcher_partition` at `R = 10`, `C = 3`. -/
theorem dispatcher_partition_witness :
    0 < 10 ∧ 0 < 3 ∧
    ((∀ i, i < 10 % 3 → workerCount 10 3 i = 10 / 3 + 1) ∧
     (∀ i, 10 % 3 ≤ i → i < 3 → workerCount 10 3 i = 10 / 3) ∧
     (∀ i, 0 ≤ workerCount 10 3 i) ∧
     (∑ i ∈ Finset.range 3, workerCount 10 3 i = 10) ∧
     (∀ i j, i < 3 → j < 3 → workerCount 10 3 i ≤ workerCount 10 3 j + 1)) :=
  ⟨by decide, by decide, dispatcher_partition 10 3 (by decide) (by decide)⟩

/-! ## Percentile denominators: claim C2 -/

/-- C2 counterexample: the 66th percentile is invoked with denominator 3
(main.go 185), but `100 / (100 − 66)` with integer truncation is 2. -/
theorem percentile_denominator_trunc_counterexample :
    (66, (3 : ℤ)) ∈ percentileCalls ∧
    ((100 / (100 - 66) : ℕ) : ℤ) = 2 ∧ (2 : ℤ) ≠ 3 := by
  decide

/-- C2 amended: seven of the eight denominators are `100 / (100 - P)` with
integer truncation, but the one for `P = 66` is 3, which is
`100 / (100 - 66)` rounded to the nearest integer rather than truncated;
rounding to nearest reproduces all eight constants. -/
theorem percentile_denominator_formula :
    ((percentileCalls.filter (fun p => p.1 ≠ 66)).map Prod.snd =
      (percentileCalls.filter (fun p => p.1 ≠ 66)).map
        (fun p => ((100 / (100 - p.1) : ℕ) : ℤ))) ∧
    (percentileCalls.map Prod.snd =
      percentileCalls.map
        (fun p => (((2 * 100 + (100 - p.1)) / (2 * (100 - p.1)) : ℕ) : ℤ))) := by
  decide

/-! ## Report on a fully failed run: claim C3 -/

/-- C3: when every call fails, each worker pushes no sample (completed
count 0) and the `Failed requests` figure is `R`; but the percentile
section does not render: with `L = 0` every one of the nine lookups reads
`s[-1]`, an out-of-range access (Go panic), so all nine are `none`. -/
theorem report_all_failed :
    (∀ count, process (fun _ => none) 0 count = []) ∧
    (∀ R : ℤ, failedRequests R [] = R) ∧
    reportPercentileValues ([] : List ℤ) = List.replicate 9 none := by
  refine ⟨fun count => ?_, fun R => by simp [failedRequests], by decide⟩
  rw [process]
  split <;> rfl

/-! ## Single-sample run: claim C4 -/

/-- C4: with `R = 1`, `C = 1` and a successful call, exactly one sample is
collected and the 100th-percentile sentinel resolves to it; but every one
of the eight formula lookups computes cut index `1*(d-1)/d - 1 = -1`, an
out-of-range access (Go panic), so none of the 50th–99th percentiles
resolves. -/
theorem single_sample_percentiles :
    process (fun _ => some 42) 0 (workerCount 1 1 0) = [42] ∧
    workerCount 1 1 0 = 1 ∧
    v [42] (-1) = some ((42 : ℤ) / 1000 : ℚ) ∧
    cutIdx 1 2 = -1 ∧
    (∀ p ∈ percentileCalls, v [42] p.2 = none) := by
  have hwc : workerCount 1 1 0 = 1 := by decide
  refine ⟨?_, hwc, ?_, by decide, ?_⟩
  · rw [hwc, process]
    norm_num
    rw [process]
    norm_num
  · norm_num [v, cutIdx, elt]
  · intro p hp
    fin_cases hp <;> decide

/-- Closed instance of `single_sample_percentiles`: the 50th-percentile
lookup on the single-sample set is the out-of-range access. -/
theorem single_sample_percentiles_witness :
    (50, (2 : ℤ)) ∈ percentileCalls ∧ v [42] 2 = none :=
  ⟨by decide, single_sample_percentiles.2.2.2.2 (50, 2) (by decide)⟩

/-! ## Unsupported argument kinds: claim C5 -/

/-- The argument loop never invokes the write primitives that follow it
(field stop, struct end, message end, flush) nor any read primitive. -/
theorem wmbLoop_ops (args : List ArgVal) (i : ℕ) :
    ProtoOp.flush ∉ (wmbLoop args i).1 ∧
    ProtoOp.fieldStop ∉ (wmbLoop args i).1 ∧
    ProtoOp.readMsgBegin ∉ (wmbLoop args i).1 := by
  induction args generalizing i with
  | nil => simp [wmbLoop]
  | cons a rest ih =>
    cases a <;> simp [wmbLoop] <;> exact ih (i + 1)

/-- An argument list containing an unsupported argument makes the loop
fail with the `unsupport type` error (main.go 44). -/
theorem wmbLoop_err (args : List ArgVal) (i : ℕ) (h : ArgVal.other ∈ args) :
    (wmbLoop args i).2 = some "unsupport type" := by
  induction args generalizing i with
  | nil => simp at h
  | cons a rest ih =>
    cases a <;> simp_all [wmbLoop] <;> exact ih (i + 1) h

/-- C5 counterexample: executing a case whose single argument has an
unsupported kind fails with the `unsupport type` error, but two write
primitives — message begin and struct begin — are invoked before the
error. -/
theorem call_unsupported_counterexample :
    call "ping" [ArgVal.other] =
      ([ProtoOp.msgBegin "ping", ProtoOp.structBegin], some "unsupport type") ∧
    (ProtoOp.msgBegin "ping").isWrite = true ∧
    ProtoOp.structBegin.isWrite = true := by
  decide

/-- C5 amended: for every argument list containing an argument of
unsupported kind, the case fails with the `unsupport type` error before
the outbound message is completed — no flush, field stop or read occurs —
but the message-begin and struct-begin write primitives are invoked
before the error. -/
theorem call_unsupported (name : String) (args : List ArgVal)
    (h : ArgVal.other ∈ args) :
    (call name args).2 = some "unsupport type" ∧
    ProtoOp.msgBegin name ∈ (call name args).1 ∧
    ProtoOp.structBegin ∈ (call name args).1 ∧
    ProtoOp.flush ∉ (call name args).1 ∧
    ProtoOp.fieldStop ∉ (call name args).1 ∧
    ProtoOp.readMsgBegin ∉ (call name args).1 := by
  have he := wmbLoop_err args 0 h
  have ho := wmbLoop_ops args 0
  rcases hw : wmbLoop args 0 with ⟨ops, err⟩
  rw [hw] at he ho
  simp only at he
  subst he
  simp [call, writeMessageBody, hw, ho.1, ho.2.1, ho.2.2]

/-- Closed instance of `call_unsupported` at a one-argument list. -/
theorem call_unsupported_witness :
    ArgVal.other ∈ [ArgVal.other] ∧
    ((call "ping" [ArgVal.other]).2 = some "unsupport type" ∧
     ProtoOp.msgBegin "ping" ∈ (call "ping" [ArgVal.other]).1 ∧
     ProtoOp.structBegin ∈ (call "ping" [ArgVal.other]).1 ∧
     ProtoOp.flush ∉ (call "ping" [ArgVal.other]).1 ∧
     ProtoOp.fieldStop ∉ (call "ping" [ArgVal.other]).1 ∧
     ProtoOp.readMsgBegin ∉ (call "ping" [ArgVal.other]).1) :=
  ⟨by decide, call_unsupported "ping" [ArgVal.other] (by decide)⟩

/-! ## Quicksort correctness: claims C8 and C9

The proof follows the usual in-place quicksort decomposition: pointwise
lemmas for `set`/`swapGo`, preservation of subrange contents (`msetR`),
a frame property for the partition loop, its partition postcondition, and
a joint induction for `sort`. -/

theorem elt_eq_getElem (xs : List ℤ) (k : ℤ) (h : k.toNat < xs.length) :
    elt xs k = xs[k.toNat] := by
  simp [elt, List.getD_eq_getElem?_getD, List.getElem?_eq_getElem h]

theorem elt_set_self (xs : List ℤ) (a : ℤ) (x : ℤ) (ha : 0 ≤ a)
    (h : a < xs.length) : elt (xs.set a.toNat x) a = x := by
  simp [elt, List.getD_eq_getElem?_getD, List.getElem?_set_self,
    show a.toNat < xs.length by omega]

theorem elt_set_of_ne (xs : List ℤ) (a : ℤ) (x : ℤ) (k : ℤ) (ha : 0 ≤ a)
    (hk : 0 ≤ k) (hne : k ≠ a) : elt (xs.set a.toNat x) k = elt xs k := by
  simp [elt, List.getD_eq_getElem?_getD,
    List.getElem?_set_ne (show a.toNat ≠ k.toNat by omega)]

theorem length_swapGo (xs : List ℤ) (a b : ℤ) :
    (swapGo xs a b).length = xs.length := by
  simp [swapGo]

theorem elt_swapGo_fst (xs : List ℤ) (a b : ℤ) (ha : 0 ≤ a) (hb : 0 ≤ b)
    (hab : a ≤ b) (hbl : b < xs.length) : elt (swapGo xs a b) a = elt xs b := by
  unfold swapGo
  by_cases hba : a = b
  · subst hba
    exact elt_set_self _ _ _ ha (by simpa using hbl)
  · rw [elt_set_of_ne _ _ _ _ hb ha (by omega),
      elt_set_self _ _ _ ha (by omega)]

theorem elt_swapGo_snd (xs : List ℤ) (a b : ℤ) (ha : 0 ≤ a) (hb : 0 ≤ b)
    (hbl : b < xs.length) : elt (swapGo xs a b) b = elt xs a := by
  unfold swapGo
  exact elt_set_self _ _ _ hb (by simpa using hbl)

theorem elt_swapGo_other (xs : List ℤ) (a b k : ℤ) (ha : 0 ≤ a) (hb : 0 ≤ b)
    (hk : 0 ≤ k) (hka : k ≠ a) (hkb : k ≠ b) :
    elt (swapGo xs a b) k = elt xs k := by
  unfold swapGo
  rw [elt_set_of_ne _ _ _ _ hb hk hkb, elt_set_of_ne _ _ _ _ ha hk hka]

theorem msetR_empty (xs : List ℤ) (l r : ℤ) (h : l > r) : msetR xs l r = 0 := by
  rw [msetR, if_pos h]

theorem msetR_cons (xs : List ℤ) (l r : ℤ) (h : l ≤ r) :
    msetR xs l r = elt xs l ::ₘ msetR xs (l + 1) r := by
  rw [msetR, if_neg (by omega)]

theorem msetR_split (xs : List ℤ) (l m r : ℤ) (h1 : l ≤ m + 1) (h2 : m ≤ r) :
    msetR xs l r = msetR xs l m + msetR xs (m + 1) r := by
  by_cases hlm : l > m
  · have hl : l = m + 1 := by omega
    rw [hl, msetR_empty xs (m + 1) m (by omega), zero_add]
  · rw [msetR_cons xs l r (by omega), msetR_cons xs l m (by omega),
      msetR_split xs (l + 1) m r (by omega) h2, Multiset.cons_add]
termination_by (m + 1 - l).toNat
decreasing_by omega

theorem msetR_congr (xs ys : List ℤ) (l r : ℤ)
    (h : ∀ k, l ≤ k → k ≤ r → elt xs k = elt ys k) :
    msetR xs l r = msetR ys l r := by
  by_cases hlr : l > r
  · rw [msetR_empty xs l r hlr, msetR_empty ys l r hlr]
  · rw [msetR_cons xs l r (by omega), msetR_cons ys l r (by omega),
      h l le_rfl (by omega),
      msetR_congr xs ys (l + 1) r (fun k h1 h2 => h k (by omega) h2)]
termination_by (r + 1 - l).toNat
decreasing_by omega

theorem msetR_singleton (xs : List ℤ) (l : ℤ) : msetR xs l l = {elt xs l} := by
  rw [msetR_cons xs l l le_rfl, msetR_empty xs (l + 1) l (by omega)]
  rfl

theorem mem_msetR (xs : List ℤ) (l r x : ℤ) :
    x ∈ msetR xs l r ↔ ∃ k, l ≤ k ∧ k ≤ r ∧ elt xs k = x := by
  by_cases hlr : l > r
  · rw [msetR_empty xs l r hlr]
    constructor
    · intro h
      exact absurd h (Multiset.not_mem_zero x)
    · rintro ⟨k, h1, h2, -⟩
      omega
  · rw [msetR_cons xs l r (by omega), Multiset.mem_cons, mem_msetR xs (l + 1) r x]
    constructor
    · rintro (h | ⟨k, h1, h2, h3⟩)
      · exact ⟨l, le_rfl, by omega, h.symm⟩
      · exact ⟨k, by omega, h2, h3⟩
    · rintro ⟨k, h1, h2, h3⟩
      by_cases hk : k = l
      · subst hk
        exact Or.inl h3.symm
      · exact Or.inr ⟨k, by omega, h2, h3⟩
termination_by (r + 1 - l).toNat
decreasing_by omega

/-- A transposition of the entries at two positions of a range leaves the
range's multiset unchanged. -/
theorem msetR_transpose (ys xs : List ℤ) (a b i j : ℤ) (hai : a ≤ i)
    (hij : i < j) (hjb : j ≤ b)
    (h1 : elt ys i = elt xs j) (h2 : elt ys j = elt xs i)
    (h3 : ∀ k, a ≤ k → k ≤ b → k ≠ i → k ≠ j → elt ys k = elt xs k) :
    msetR ys a b = msetR xs a b := by
  have e1 : i - 1 + 1 = i := by omega
  have e2 : j - 1 + 1 = j := by omega
  have d1 : ∀ zs : List ℤ, msetR zs a b =
      msetR zs a (i - 1) + ({elt zs i} +
        (msetR zs (i + 1) (j - 1) + ({elt zs j} + msetR zs (j + 1) b))) := by
    intro zs
    rw [msetR_split zs a (i - 1) b (by omega) (by omega), e1,
      msetR_split zs i i b (by omega) (by omega),
      msetR_split zs (i + 1) (j - 1) b (by omega) (by omega), e2,
      msetR_split zs j j b (by omega) (by omega),
      msetR_singleton zs i, msetR_singleton zs j]
  rw [d1 ys, d1 xs, h1, h2,
    msetR_congr ys xs a (i - 1)
      (fun k hk1 hk2 => h3 k hk1 (by omega) (by omega) (by omega)),
    msetR_congr ys xs (i + 1) (j - 1)
      (fun k hk1 hk2 => h3 k (by omega) (by omega) (by omega) (by omega)),
    msetR_congr ys xs (j + 1) b
      (fun k hk1 hk2 => h3 k (by omega) hk2 (by omega) (by omega))]
  abel

theorem ploop_length (values : List ℤ) (pivot i j r : ℤ) :
    (ploop values pivot i j r).1.length = values.length := by
  rw [ploop]
  by_cases hjr : j > r
  · rw [if_pos hjr]
  · rw [if_neg hjr]
    by_cases hp : pivot > elt values j
    · rw [if_pos hp, ploop_length (swapGo values i j) pivot (i + 1) (j + 1) r,
        length_swapGo]
    · rw [if_neg hp]
      exact ploop_length values pivot i (j + 1) r
termination_by (r + 1 - j).toNat
decreasing_by all_goals omega

/-- The partition loop never touches a position below `i` or above `r`. -/
theorem ploop_frame (values : List ℤ) (pivot i j r : ℤ) (hi : 0 < i)
    (hij : i ≤ j) (k : ℤ) (hk : 0 ≤ k) (hout : k < i ∨ r < k) :
    elt (ploop values pivot i j r).1 k = elt values k := by
  rw [ploop]
  by_cases hjr : j > r
  · rw [if_pos hjr]
  · rw [if_neg hjr]
    by_cases hp : pivot > elt values j
    · rw [if_pos hp,
        ploop_frame (swapGo values i j) pivot (i + 1) (j + 1) r (by omega)
          (by omega) k hk (by omega)]
      exact elt_swapGo_other values i j k (by omega) (by omega) hk (by omega)
        (by omega)
    · rw [if_neg hp]
      exact ploop_frame values pivot i (j + 1) r hi (by omega) k hk hout
termination_by (r + 1 - j).toNat
decreasing_by all_goals omega

/-- The partition loop permutes positions `i..r` in place, so any range
containing them keeps its contents. -/
theorem ploop_msetR (values : List ℤ) (pivot i j r a b : ℤ) (hi : 0 < i)
    (hij : i ≤ j) (hr : r < values.length) (ha0 : 0 ≤ a) (ha : a ≤ i)
    (hb : r ≤ b) :
    msetR (ploop values pivot i j r).1 a b = msetR values a b := by
  rw [ploop]
  by_cases hjr : j > r
  · rw [if_pos hjr]
  · rw [if_neg hjr]
    by_cases hp : pivot > elt values j
    · rw [if_pos hp,
        ploop_msetR (swapGo values i j) pivot (i + 1) (j + 1) r a b (by omega)
          (by omega) (by rw [length_swapGo]; exact hr) ha0 (by omega) hb]
      by_cases hij2 : i = j
      · subst hij2
        apply msetR_congr
        intro k h1 h2
        by_cases hki : k = i
        · subst hki
          exact elt_swapGo_fst values k k (by omega) (by omega) le_rfl (by omega)
        · exact elt_swapGo_other values i i k (by omega) (by omega) (by omega)
            hki hki
      · apply msetR_transpose (swapGo values i j) values a b i j ha (by omega)
          (by omega)
        · exact elt_swapGo_fst values i j (by omega) (by omega) (by omega)
            (by omega)
        · exact elt_swapGo_snd values i j (by omega) (by omega) (by omega)
        · intro k h1 h2 h3 h4
          exact elt_swapGo_other values i j k (by omega) (by omega) (by omega)
            h3 h4
    · rw [if_neg hp]
      exact ploop_msetR values pivot i (j + 1) r a b hi (by omega) hr ha0 ha hb
termination_by (r + 1 - j).toNat
decreasing_by all_goals omega

/-- Partition postcondition: on return with final pointer `i'`, positions
`i..i'-1` hold values strictly below the pivot and positions `i'..r`
values at or above it. -/
theorem ploop_partition (values : List ℤ) (pivot i j r : ℤ) (hi : 0 < i)
    (hij : i ≤ j) (hj : j ≤ r + 1) (hr : r < values.length)
    (hge : ∀ k, i ≤ k → k < j → pivot ≤ elt values k) :
    (∀ k, i ≤ k → k < (ploop values pivot i j r).2 →
      elt (ploop values pivot i j r).1 k < pivot) ∧
    (∀ k, (ploop values pivot i j r).2 ≤ k → k ≤ r →
      pivot ≤ elt (ploop values pivot i j r).1 k) := by
  rw [ploop]
  by_cases hjr : j > r
  · rw [if_pos hjr]
    exact ⟨fun k h1 h2 => absurd h2 (by omega),
      fun k h1 h2 => hge k h1 (by omega)⟩
  · rw [if_neg hjr]
    by_cases hp : pivot > elt values j
    · rw [if_pos hp]
      have hlen : r < (swapGo values i j).length := by
        rw [length_swapGo]; exact hr
      have hge' : ∀ k, i + 1 ≤ k → k < j + 1 →
          pivot ≤ elt (swapGo values i j) k := by
        intro k h1 h2
        by_cases hkj : k = j
        · subst hkj
          rw [elt_swapGo_snd values i k (by omega) (by omega) (by omega)]
          exact hge i le_rfl (by omega)
        · rw [elt_swapGo_other values i j k (by omega) (by omega) (by omega)
            (by omega) hkj]
          exact hge k (by omega) (by omega)
      have IH := ploop_partition (swapGo values i j) pivot (i + 1) (j + 1) r
        (by omega) (by omega) (by omega) hlen hge'
      refine ⟨fun k h1 h2 => ?_, IH.2⟩
      by_cases hki : k = i
      · subst hki
        rw [ploop_frame (swapGo values k j) pivot (k + 1) (j + 1) r (by omega)
          (by omega) k (by omega) (by omega)]
        rw [elt_swapGo_fst values k j (by omega) (by omega) (by omega)
          (by omega)]
        exact hp
      · exact IH.1 k (by omega) h2
    · rw [if_neg hp]
      have hge' : ∀ k, i ≤ k → k < j + 1 → pivot ≤ elt values k := by
        intro k h1 h2
        by_cases hkj : k = j
        · subst hkj
          exact le_of_not_lt hp
        · exact hge k h1 (by omega)
      exact ploop_partition values pivot i (j + 1) r hi (by omega) (by omega)
        hr hge'
termination_by (r + 1 - j).toNat
decreasing_by all_goals omega

/-- Joint induction for `sort`: it preserves length, leaves positions
outside `l..r` untouched, permutes the contents of `l..r` in place, and
leaves `l..r` in ascending order. -/
theorem sort_spec_aux (values : List ℤ) (l r : ℤ) (hl : 0 ≤ l)
    (hr : r < values.length) :
    (sort values l r).length = values.length ∧
    (∀ k : ℤ, 0 ≤ k → (k < l ∨ r < k) → elt (sort values l r) k = elt values k) ∧
    msetR (sort values l r) l r = msetR values l r ∧
    (∀ k k' : ℤ, l ≤ k → k ≤ k' → k' ≤ r →
      elt (sort values l r) k ≤ elt (sort values l r) k') := by
  by_cases hlr : l ≥ r
  · rw [sort, if_pos hlr]
    refine ⟨rfl, fun k _ _ => rfl, rfl, fun k k' h1 h2 h3 => ?_⟩
    have hkk : k = k' := by omega
    rw [hkk]
  · have hlt : l < r := by omega
    have hunfold : sort values l r =
        sort (sort (((ploop values (elt values l) (l + 1) (l + 1) r).1.set
            l.toNat
            (elt (ploop values (elt values l) (l + 1) (l + 1) r).1
              ((ploop values (elt values l) (l + 1) (l + 1) r).2 - 1))).set
            ((ploop values (elt values l) (l + 1) (l + 1) r).2 - 1).toNat
            (elt values l))
          l ((ploop values (elt values l) (l + 1) (l + 1) r).2 - 2))
          (ploop values (elt values l) (l + 1) (l + 1) r).2 r := by
      rw [sort]
      simp only [if_neg hlr]
    rw [hunfold]
    have hb := ploop_snd_bounds values (elt values l) (l + 1) (l + 1) r le_rfl
      (by omega)
    have hlen1 := ploop_length values (elt values l) (l + 1) (l + 1) r
    have hpart := ploop_partition values (elt values l) (l + 1) (l + 1) r
      (by omega) le_rfl (by omega) hr (fun k h1 h2 => by omega)
    have hmset1 := ploop_msetR values (elt values l) (l + 1) (l + 1) r l r
      (by omega) le_rfl hr hl (by omega) le_rfl
    have hframe1 := ploop_frame values (elt values l) (l + 1) (l + 1) r
      (by omega) le_rfl
    set i' := (ploop values (elt values l) (l + 1) (l + 1) r).2 with hi'
    set v1 := (ploop values (elt values l) (l + 1) (l + 1) r).1 with hv1
    set w := (v1.set l.toNat (elt v1 (i' - 1))).set (i' - 1).toNat
      (elt values l) with hwdef
    have hwlen : w.length = values.length := by
      rw [hwdef, List.length_set, List.length_set]
      exact hlen1
    have hpiv1 : elt v1 l = elt values l := hframe1 l hl (Or.inl (by omega))
    have hw_other : ∀ k : ℤ, 0 ≤ k → k ≠ l → k ≠ i' - 1 →
        elt w k = elt v1 k := by
      intro k hk h1 h2
      rw [hwdef, elt_set_of_ne _ _ _ _ (by omega) hk h2,
        elt_set_of_ne _ _ _ _ hl hk h1]
    have hw_last : elt w (i' - 1) = elt values l := by
      rw [hwdef]
      exact elt_set_self _ _ _ (by omega)
        (by rw [List.length_set]; rw [hlen1]; omega)
    have hw_l : l < i' - 1 → elt w l = elt v1 (i' - 1) := by
      intro hli
      rw [hwdef, elt_set_of_ne _ _ _ _ (by omega) hl (by omega),
        elt_set_self _ _ _ hl (by rw [hlen1]; omega)]
    have hA : ∀ k, l + 1 ≤ k → k < i' → elt v1 k < elt values l := hpart.1
    have hB : ∀ k, i' ≤ k → k ≤ r → elt values l ≤ elt v1 k := hpart.2
    have hA2 : ∀ k, l ≤ k → k ≤ i' - 2 → elt w k < elt values l := by
      intro k h1 h2
      by_cases hkl : k = l
      · subst hkl
        rw [hw_l (by omega)]
        exact hA (i' - 1) (by omega) (by omega)
      · rw [hw_other k (by omega) hkl (by omega)]
        exact hA k (by omega) (by omega)
    have hB2 : ∀ k, i' ≤ k → k ≤ r → elt values l ≤ elt w k := by
      intro k h1 h2
      rw [hw_other k (by omega) (by omega) (by omega)]
      exact hB k h1 h2
    have hmw : msetR w l r = msetR v1 l r := by
      by_cases hli : l = i' - 1
      · apply msetR_congr
        intro k h1 h2
        by_cases hkl : k = l
        · rw [hkl, hli, hw_last, ← hli]
          exact hpiv1.symm
        · exact hw_other k (by omega) hkl (by omega)
      · apply msetR_transpose w v1 l r l (i' - 1) le_rfl (by omega) (by omega)
        · exact hw_l (by omega)
        · rw [hw_last]
          exact hpiv1.symm
        · intro k h1 h2 h3 h4
          exact hw_other k (by omega) h3 h4
    have S1 := sort_spec_aux w l (i' - 2) hl (by rw [hwlen]; omega)
    set w1 := sort w l (i' - 2) with hw1def
    have hw1len : w1.length = values.length := S1.1.trans hwlen
    have hw1_last : elt w1 (i' - 1) = elt values l := by
      rw [S1.2.1 (i' - 1) (by omega) (Or.inr (by omega))]
      exact hw_last
    have hw1_B : ∀ k, i' ≤ k → k ≤ r → elt values l ≤ elt w1 k := by
      intro k h1 h2
      rw [S1.2.1 k (by omega) (Or.inr (by omega))]
      exact hB2 k h1 h2
    have hw1_A : ∀ k, l ≤ k → k ≤ i' - 2 → elt w1 k < elt values l := by
      intro k h1 h2
      have hmem : elt w1 k ∈ msetR w1 l (i' - 2) :=
        (mem_msetR _ _ _ _).mpr ⟨k, h1, h2, rfl⟩
      rw [S1.2.2.1] at hmem
      obtain ⟨k0, hk1, hk2, hk3⟩ := (mem_msetR _ _ _ _).mp hmem
      rw [← hk3]
      exact hA2 k0 hk1 hk2
    have S2 := sort_spec_aux w1 i' r (by omega) (by rw [hw1len]; exact hr)
    set w2 := sort w1 i' r with hw2def
    have hlow : ∀ k, 0 ≤ k → k ≤ i' - 2 → elt w2 k = elt w1 k := by
      intro k hk1 hk2
      exact S2.2.1 k hk1 (Or.inl (by omega))
    have hmid : elt w2 (i' - 1) = elt values l := by
      rw [S2.2.1 (i' - 1) (by omega) (Or.inl (by omega))]
      exact hw1_last
    have hhigh : ∀ k, i' ≤ k → k ≤ r → elt values l ≤ elt w2 k := by
      intro k h1 h2
      have hmem : elt w2 k ∈ msetR w2 i' r :=
        (mem_msetR _ _ _ _).mpr ⟨k, h1, h2, rfl⟩
      rw [S2.2.2.1] at hmem
      obtain ⟨k0, hk1, hk2, hk3⟩ := (mem_msetR _ _ _ _).mp hmem
      rw [← hk3]
      exact hw1_B k0 hk1 hk2
    have hlow_lt : ∀ k, l ≤ k → k ≤ i' - 2 → elt w2 k < elt values l := by
      intro k h1 h2
      rw [hlow k (by omega) h2]
      exact hw1_A k h1 h2
    refine ⟨S2.1.trans hw1len, ?_, ?_, ?_⟩
    · intro k hk ho
      rw [S2.2.1 k hk (by omega), S1.2.1 k hk (by omega),
        hw_other k hk (by omega) (by omega)]
      exact hframe1 k hk (by omega)
    · have e1 : msetR w2 l (i' - 1) = msetR w1 l (i' - 1) :=
        msetR_congr _ _ _ _
          (fun k h1 h2 => S2.2.1 k (by omega) (Or.inl (by omega)))
      have e2 : msetR w1 (i' - 1) (i' - 1) = msetR w (i' - 1) (i' - 1) :=
        msetR_congr _ _ _ _
          (fun k h1 h2 => S1.2.1 k (by omega) (Or.inr (by omega)))
      have e3 : msetR w1 i' r = msetR w i' r :=
        msetR_congr _ _ _ _
          (fun k h1 h2 => S1.2.1 k (by omega) (Or.inr (by omega)))
      have e4 : i' - 2 + 1 = i' - 1 := by omega
      have e5 : i' - 1 + 1 = i' := by omega
      calc msetR w2 l r
          = msetR w2 l (i' - 1) + msetR w2 i' r := by
            rw [msetR_split w2 l (i' - 1) r (by omega) (by omega), e5]
        _ = msetR w1 l (i' - 1) + msetR w1 i' r := by rw [e1, S2.2.2.1]
        _ = (msetR w1 l (i' - 2) + msetR w1 (i' - 1) (i' - 1)) + msetR w1 i' r := by
            rw [msetR_split w1 l (i' - 2) (i' - 1) (by omega) (by omega), e4]
        _ = (msetR w l (i' - 2) + msetR w (i' - 1) (i' - 1)) + msetR w i' r := by
            rw [S1.2.2.1, e2, e3]
        _ = msetR w l (i' - 1) + msetR w i' r := by
            rw [msetR_split w l (i' - 2) (i' - 1) (by omega) (by omega), e4]
        _ = msetR w l r := by
            have s := msetR_split w l (i' - 1) r (by omega) (by omega)
            rw [e5] at s
            exact s.symm
        _ = msetR v1 l r := hmw
        _ = msetR values l r := hmset1
    · intro k k' h1 h2 h3
      by_cases hk2 : k ≤ i' - 2
      · by_cases hk'2 : k' ≤ i' - 2
        · rw [hlow k (by omega) hk2, hlow k' (by omega) hk'2]
          exact S1.2.2.2 k k' h1 h2 hk'2
        · have hkv : elt w2 k < elt values l := hlow_lt k h1 hk2
          by_cases hk'1 : k' = i' - 1
          · rw [hk'1, hmid]
            omega
          · have hk'v : elt values l ≤ elt w2 k' := hhigh k' (by omega) h3
            omega
      · by_cases hk1 : k = i' - 1
        · rw [hk1, hmid]
          by_cases hk'1 : k' = i' - 1
          · rw [hk'1, hmid]
          · exact hhigh k' (by omega) h3
        · exact S2.2.2.2 k k' (by omega) h2 h3
termination_by (r - l).toNat
decreasing_by all_goals omega

theorem msetR_eq_coe_drop (xs : List ℤ) (l : ℤ) (hl : 0 ≤ l) :
    msetR xs l ((xs.length : ℤ) - 1) = (xs.drop l.toNat : Multiset ℤ) := by
  by_cases h : l > (xs.length : ℤ) - 1
  · rw [msetR_empty _ _ _ h, List.drop_eq_nil_of_le (by omega)]
    rfl
  · have hlt : l.toNat < xs.length := by omega
    rw [msetR_cons _ _ _ (by omega), msetR_eq_coe_drop xs (l + 1) (by omega),
      List.drop_eq_getElem_cons hlt, ← Multiset.cons_coe,
      elt_eq_getElem xs l hlt]
    have e : (l + 1).toNat = l.toNat + 1 := by omega
    rw [e]
termination_by ((xs.length : ℤ) - l).toNat
decreasing_by omega

theorem elt_natCast (xs : List ℤ) (n : ℕ) (h : n < xs.length) :
    elt xs (n : ℤ) = xs[n] := by
  simp [elt, List.getD_eq_getElem?_getD, List.getElem?_eq_getElem h]

theorem sorted_of_elt_mono (xs : List ℤ)
    (h : ∀ k k' : ℤ, 0 ≤ k → k ≤ k' → k' ≤ (xs.length : ℤ) - 1 →
      elt xs k ≤ elt xs k') :
    List.Sorted (· ≤ ·) xs := by
  apply List.pairwise_iff_getElem.mpr
  intro a b ha hb hab
  have hm := h a b (by omega) (by omega) (by omega)
  rwa [elt_natCast xs a (by omega), elt_natCast xs b (by omega)] at hm

theorem elt_mono_of_sorted (xs : List ℤ) (hs : List.Sorted (· ≤ ·) xs)
    (k k' : ℤ) (h0 : 0 ≤ k) (hkk : k ≤ k') (hk' : k' < (xs.length : ℤ)) :
    elt xs k ≤ elt xs k' := by
  rcases eq_or_lt_of_le hkk with h | h
  · rw [h]
  · have h2 := List.pairwise_iff_getElem.mp hs k.toNat k'.toNat (by omega)
      (by omega) (by omega)
    rw [elt_eq_getElem xs k (by omega), elt_eq_getElem xs k' (by omega)]
    exact h2

/-- C8: the in-place first-element-pivot quicksort, run over the whole
slice the way `collect` does (`sort s 0 (len-1)`, main.go 160), returns a
permutation of its input in ascending order; on an already-sorted input
it returns the input itself. -/
theorem sort_sorts (values : List ℤ) :
    (sort values 0 ((values.length : ℤ) - 1)).Perm values ∧
    List.Sorted (· ≤ ·) (sort values 0 ((values.length : ℤ) - 1)) ∧
    (List.Sorted (· ≤ ·) values → sort values 0 ((values.length : ℤ) - 1) = values) := by
  have S := sort_spec_aux values 0 ((values.length : ℤ) - 1) le_rfl (by omega)
  have hcast : ((sort values 0 ((values.length : ℤ) - 1)).length : ℤ) =
      (values.length : ℤ) := by exact_mod_cast congrArg Nat.cast S.1
  have hperm : (sort values 0 ((values.length : ℤ) - 1)).Perm values := by
    apply Multiset.coe_eq_coe.mp
    have h1 := msetR_eq_coe_drop (sort values 0 ((values.length : ℤ) - 1)) 0
      le_rfl
    have h2 := msetR_eq_coe_drop values 0 le_rfl
    rw [hcast] at h1
    simp only [Int.toNat_zero, List.drop_zero] at h1 h2
    rw [← h1, ← h2]
    exact S.2.2.1
  have hsorted : List.Sorted (· ≤ ·) (sort values 0 ((values.length : ℤ) - 1)) := by
    apply sorted_of_elt_mono
    intro k k' h0 hkk hk'
    exact S.2.2.2 k k' h0 hkk (by omega)
  exact ⟨hperm, hsorted,
    fun hv => List.eq_of_perm_of_sorted hperm hsorted hv⟩

/-- C9: for in-slice bounds with `l < r`, the partition pointer ends in
`[l+1, r+1]`, so both recursive calls of `sort` act on strictly smaller
subranges than `[l, r]` — the recursion terminates. -/
theorem sort_recursive_calls_shrink (values : List ℤ) (l r : ℤ) (hl : 0 ≤ l)
    (hlr : l < r) (hr : r < values.length) :
    l + 1 ≤ (ploop values (elt values l) (l + 1) (l + 1) r).2 ∧
    (ploop values (elt values l) (l + 1) (l + 1) r).2 ≤ r + 1 ∧
    ((ploop values (elt values l) (l + 1) (l + 1) r).2 - 2) - l < r - l ∧
    r - (ploop values (elt values l) (l + 1) (l + 1) r).2 < r - l := by
  have hb := ploop_snd_bounds values (elt values l) (l + 1) (l + 1) r le_rfl
    (by omega)
  omega

/-- Closed instance of `sort_recursive_calls_shrink` on the slice `[2, 1]`. -/
theorem sort_recursive_calls_shrink_witness :
    (0 : ℤ) ≤ 0 ∧ (0 : ℤ) < 1 ∧ (1 : ℤ) < (([2, 1] : List ℤ).length : ℤ) ∧
    (0 + 1 ≤ (ploop [2, 1] (elt [2, 1] 0) (0 + 1) (0 + 1) 1).2 ∧
     (ploop [2, 1] (elt [2, 1] 0) (0 + 1) (0 + 1) 1).2 ≤ 1 + 1 ∧
     ((ploop [2, 1] (elt [2, 1] 0) (0 + 1) (0 + 1) 1).2 - 2) - 0 < 1 - 0 ∧
     1 - (ploop [2, 1] (elt [2, 1] 0) (0 + 1) (0 + 1) 1).2 < 1 - 0) :=
  ⟨by decide, by decide, by decide,
    sort_recursive_calls_shrink [2, 1] 0 1 (by decide) (by decide) (by decide)⟩

/-! ## Percentile lookups on concrete and sorted samples: claims C6, C7, C10 -/

/-- C6: on the sorted sample set `[0, 1, ..., 999]` (microseconds), the
lookup returns 0.499 ms for the 50th percentile (denominator 2, cut index
499), 0.989 ms for the 99th (denominator 100, cut index 989) and 0.999 ms
for the 100th (sentinel, index 999). -/
theorem percentile_thousand :
    v ((List.range 1000).map (fun n => (n : ℤ))) 2 = some ((499 : ℚ) / 1000) ∧
    v ((List.range 1000).map (fun n => (n : ℤ))) 100 = some ((989 : ℚ) / 1000) ∧
    v ((List.range 1000).map (fun n => (n : ℤ))) (-1) = some ((999 : ℚ) / 1000) := by
  have h50 : v ((List.range 1000).map (fun n => (n : ℤ))) 2 =
      some (((499 : ℤ) : ℚ) / 1000) := by
    set_option maxRecDepth 100000 in rfl
  have h99 : v ((List.range 1000).map (fun n => (n : ℤ))) 100 =
      some (((989 : ℤ) : ℚ) / 1000) := by
    set_option maxRecDepth 100000 in rfl
  have h100 : v ((List.range 1000).map (fun n => (n : ℤ))) (-1) =
      some (((999 : ℤ) : ℚ) / 1000) := by
    set_option maxRecDepth 100000 in rfl
  refine ⟨?_, ?_, ?_⟩
  · rw [h50]; norm_num
  · rw [h99]; norm_num
  · rw [h100]; norm_num

/-- C7: for a non-empty sample set and any non-positive denominator, the
lookup takes the sentinel branch and returns the last sorted element, at
index `L - 1`, divided by 1000 — the cut-index formula is not used. -/
theorem sentinel_returns_last (s : List ℤ) (d : ℤ) (hs : s ≠ []) (hd : d ≤ 0) :
    v s d = some ((elt s ((s.length : ℤ) - 1) : ℚ) / 1000) := by
  have hlen : 0 < s.length := List.length_pos.mpr hs
  simp only [v, cutIdx, if_pos hd]
  rw [if_pos (by omega : (0 : ℤ) ≤ (s.length : ℤ) - 1 ∧
    (s.length : ℤ) - 1 < (s.length : ℤ))]

/-- Closed instance of `sentinel_returns_last` at the one-sample set. -/
theorem sentinel_returns_last_witness :
    ([7] : List ℤ) ≠ [] ∧ (-1 : ℤ) ≤ 0 ∧
    v [7] (-1) = some ((elt [7] ((([7] : List ℤ).length : ℤ) - 1) : ℚ) / 1000) :=
  ⟨by decide, by decide, sentinel_returns_last [7] (-1) (by decide) (by decide)⟩

theorem cutIdx_bounds (L : ℕ) (d : ℤ) (hL : 2 ≤ L) (hd : 2 ≤ d) :
    0 ≤ cutIdx L d ∧ cutIdx L d < (L : ℤ) - 1 := by
  unfold cutIdx
  rw [if_neg (by omega)]
  have he2 : 2 ≤ d.toNat := by omega
  constructor
  · have h1 : d.toNat ≤ L * (d.toNat - 1) := by
      calc d.toNat ≤ 2 * (d.toNat - 1) := by omega
        _ ≤ L * (d.toNat - 1) := Nat.mul_le_mul_right _ hL
    have h2 := (Nat.one_le_div_iff (by omega : 0 < d.toNat)).mpr h1
    omega
  · have h2 : L * (d.toNat - 1) / d.toNat < L := by
      apply Nat.div_lt_of_lt_mul
      calc L * (d.toNat - 1) < L * d.toNat :=
        mul_lt_mul_of_pos_left (by omega) (by omega)
        _ = d.toNat * L := Nat.mul_comm _ _
    omega

theorem cutIdx_mono (L : ℕ) (d₁ d₂ : ℤ) (hd₁ : 2 ≤ d₁) (hdd : d₁ ≤ d₂) :
    cutIdx L d₁ ≤ cutIdx L d₂ := by
  unfold cutIdx
  rw [if_neg (by omega), if_neg (by omega)]
  have key : L * (d₁.toNat - 1) / d₁.toNat ≤ L * (d₂.toNat - 1) / d₂.toNat := by
    have he1 : 2 ≤ d₁.toNat := by omega
    have he12 : d₁.toNat ≤ d₂.toNat := by omega
    rw [Nat.le_div_iff_mul_le (by omega : 0 < d₂.toNat)]
    have h1 : L * (d₁.toNat - 1) / d₁.toNat * d₁.toNat ≤ L * (d₁.toNat - 1) :=
      Nat.div_mul_le_self _ _
    have hXL : L * (d₁.toNat - 1) / d₁.toNat ≤ L := by
      calc L * (d₁.toNat - 1) / d₁.toNat ≤ L * d₁.toNat / d₁.toNat :=
        Nat.div_le_div_right (Nat.mul_le_mul_left _ (by omega))
        _ = L := Nat.mul_div_cancel _ (by omega)
    zify [show 1 ≤ d₁.toNat by omega, show 1 ≤ d₂.toNat by omega] at h1 hXL ⊢
    nlinarith [mul_le_mul_of_nonneg_right
      (by omega : (0 : ℤ) ≤ (L : ℤ) - L * (d₁.toNat - 1) / d₁.toNat)
      (by omega : (0 : ℤ) ≤ (d₂.toNat : ℤ) - d₁.toNat)]
  omega

theorem cutIdx_sentinel (L : ℕ) (d : ℤ) (hd : d ≤ 0) :
    cutIdx L d = (L : ℤ) - 1 := by
  unfold cutIdx
  rw [if_pos hd]

theorem v_eq_some (s : List ℤ) (d : ℤ) (h : 0 ≤ cutIdx s.length d ∧
    cutIdx s.length d < (s.length : ℤ)) : v s d = some (vq s d) := by
  simp only [v, vq]
  rw [if_pos h]

theorem vq_mono (s : List ℤ) (hs : List.Sorted (· ≤ ·) s) (hL : 2 ≤ s.length)
    (d₁ d₂ : ℤ) (h1 : 2 ≤ d₁) (h2 : d₁ ≤ d₂) : vq s d₁ ≤ vq s d₂ := by
  unfold vq
  have hm := cutIdx_mono s.length d₁ d₂ h1 h2
  have hb1 := cutIdx_bounds s.length d₁ hL h1
  have hb2 := cutIdx_bounds s.length d₂ hL (by omega)
  have helt := elt_mono_of_sorted s hs _ _ hb1.1 hm (by omega)
  exact (div_le_div_right (by norm_num : (0 : ℚ) < 1000)).mpr
    (Int.cast_le.mpr helt)

theorem vq_le_sentinel (s : List ℤ) (hs : List.Sorted (· ≤ ·) s)
    (hL : 2 ≤ s.length) (d : ℤ) (hd : 2 ≤ d) : vq s d ≤ vq s (-1) := by
  unfold vq
  have hb := cutIdx_bounds s.length d hL hd
  have hsent := cutIdx_sentinel s.length (-1) (by omega)
  rw [hsent]
  have helt := elt_mono_of_sorted s hs (cutIdx s.length d)
    ((s.length : ℤ) - 1) hb.1 (by omega) (by omega)
  exact (div_le_div_right (by norm_num : (0 : ℚ) < 1000)).mpr
    (Int.cast_le.mpr helt)

/-- C10: on an ascending-sorted sample set with at least two elements, all
eight cut indexes are in bounds `[0, L-1]`, every lookup the report makes
resolves, and the reported values are non-decreasing from the 50th
percentile through the 100th. -/
theorem percentile_monotone (s : List ℤ) (hs : List.Sorted (· ≤ ·) s)
    (hL : 2 ≤ s.length) :
    (∀ p ∈ percentileCalls, 0 ≤ cutIdx s.length p.2 ∧
      cutIdx s.length p.2 ≤ (s.length : ℤ) - 1) ∧
    (∀ p ∈ percentileCalls, v s p.2 = some (vq s p.2)) ∧
    v s (-1) = some (vq s (-1)) ∧
    (vq s 2 ≤ vq s 3 ∧ vq s 3 ≤ vq s 4 ∧ vq s 4 ≤ vq s 5 ∧ vq s 5 ≤ vq s 10 ∧
     vq s 10 ≤ vq s 20 ∧ vq s 20 ≤ vq s 50 ∧ vq s 50 ≤ vq s 100 ∧
     vq s 100 ≤ vq s (-1)) := by
  have hbd : ∀ d : ℤ, 2 ≤ d → 0 ≤ cutIdx s.length d ∧
      cutIdx s.length d ≤ (s.length : ℤ) - 1 := by
    intro d hd
    have := cutIdx_bounds s.length d hL hd
    omega
  have hvs : ∀ d : ℤ, 2 ≤ d → v s d = some (vq s d) := by
    intro d hd
    refine v_eq_some s d ⟨(hbd d hd).1, ?_⟩
    have := (hbd d hd).2
    omega
  refine ⟨?_, ?_, ?_, ?_, ?_, ?_, ?_, ?_, ?_, ?_, ?_⟩
  · intro p hp
    fin_cases hp <;> exact hbd _ (by decide)
  · intro p hp
    fin_cases hp <;> exact hvs _ (by decide)
  · refine v_eq_some s (-1) ?_
    rw [cutIdx_sentinel s.length (-1) (by omega)]
    omega
  · exact vq_mono s hs hL 2 3 (by norm_num) (by norm_num)
  · exact vq_mono s hs hL 3 4 (by norm_num) (by norm_num)
  · exact vq_mono s hs hL 4 5 (by norm_num) (by norm_num)
  · exact vq_mono s hs hL 5 10 (by norm_num) (by norm_num)
  · exact vq_mono s hs hL 10 20 (by norm_num) (by norm_num)
  · exact vq_mono s hs hL 20 50 (by norm_num) (by norm_num)
  · exact vq_mono s hs hL 50 100 (by norm_num) (by norm_num)
  · exact vq_le_sentinel s hs hL 100 (by norm_num)

/-- Closed instance of `percentile_monotone` at the sample set `[1, 2]`. -/
theorem percentile_monotone_witness :
    List.Sorted (· ≤ ·) ([1, 2] : List ℤ) ∧ 2 ≤ ([1, 2] : List ℤ).length ∧
    vq [1, 2] 2 ≤ vq [1, 2] 3 :=
  ⟨by decide, by decide,
    (percentile_monotone [1, 2] (by decide) (by decide)).2.2.2.1⟩

end Tenchmark
